import Mathlib

/-!
Shallow embedding of the orphan reconciliation and safe-deletion engine of
`preview_wrangler` (files `orphan_cleaner.py` and `marker_scanner.py`),
together with theorems settling the frozen claims about it.

Modelling conventions:
* CSV rows are lists of strings; a snapshot partition is a list of rows.
* Python `"sub" in s` and `s.endswith(suf)` become `strContains` and
  `strEndsWith`, computed on the underlying character lists.
* Python `int(s)` with the surrounding `try/except` fallback to `0`
  becomes `parsePyInt`.
* `datetime.fromisoformat(last_modified.replace("Z", "+00:00"))` is an
  external library call; it is modelled by an explicit parameter
  `parseIso : String → Option Nat` (timestamps as seconds), `none`
  meaning the `ValueError`/`AttributeError` branch.
* `datetime` values are seconds since the epoch (`Nat`);
  `replace(minute=0, second=0, microsecond=0)` is `normalizeHour`,
  `timedelta(hours=1)` is `3600`, `timedelta(days=d)` is `d * 86400`.
* The hourly S3 path `prefix/YYYY/MM/DD/HH/` is identified by the pair
  (marker class, hour timestamp); `strftime` is an injective external
  formatting of the hour, so the hour stands for the path.  The object
  store listing is a parameter `store : String → Nat → List String`
  giving the keys listed under a (marker class, hour) path.
* S3 `delete_objects` is a parameter `resp : Nat → List String → DelResp`
  mapping the batch start index and the batch to the response:
  `DelResp.ok (some errs)` is a response carrying an `Errors` list,
  `DelResp.ok none` a response without one, `DelResp.fail` an exception
  raised by the call.
* Python dicts keep insertion order; they are modelled as association
  lists, `upsert` being the `dict.setdefault`/`append` pattern used by
  the source.
-/

namespace PreviewWrangler

/-! String helpers (Python `in`, `endswith`, `int`) -/

/-- Python substring test, auxiliary recursion on the haystack. -/
def containsSub (needle : List Char) : List Char → Bool
  | [] => needle.isEmpty
  | c :: rest => needle.isPrefixOf (c :: rest) || containsSub needle rest

/-- Python `sub in s`. -/
def strContains (s sub : String) : Bool :=
  containsSub sub.data s.data

/-- Python `s.endswith(suf)`. -/
def strEndsWith (s suf : String) : Bool :=
  suf.data.isSuffixOf s.data

/-- Value of a nonempty digit string, `none` when empty or when any
character is not a digit. -/
def digitsVal? (cs : List Char) : Option Nat :=
  if cs ≠ [] ∧ cs.all Char.isDigit then
    some (cs.foldl (fun n c => n * 10 + (c.toNat - 48)) 0)
  else none

/-- Python `int(s)` on a decimal literal with an optional leading minus
sign; `none` models the `ValueError` branch. -/
def pyToInt? (s : String) : Option Int :=
  match s.data with
  | [] => none
  | c :: rest =>
    if c = Char.ofNat 45 then (digitsVal? rest).map fun n => -(n : Int)
    else (digitsVal? (c :: rest)).map fun n => (n : Int)

/-- Python `int(s)` guarded by `try/except` defaulting to 0
(`orphan_cleaner.py`, lines 83-86). -/
def parsePyInt (s : String) : Int :=
  (pyToInt? s).getD 0

/-- Python `s.split(sep)` for a one-character separator, on character
lists: every occurrence of the separator starts a new field. -/
def splitChar (sep : Char) : List Char → List (List Char)
  | [] => [[]]
  | c :: rest =>
    let r := splitChar sep rest
    if c = sep then [] :: r
    else
      match r with
      | [] => [[c]]
      | w :: ws => (c :: w) :: ws

/-- Python `key.split("/")`. -/
def pySplitSlash (s : String) : List String :=
  (splitChar (Char.ofNat 47) s.data).map String.mk

/-! Pass 1: `_process_csv_for_projects` (orphan_cleaner.py 22-54) -/

/-- A character of the regex class `[a-f0-9-]`. -/
def isHexDashChar (c : Char) : Bool :=
  (Char.ofNat 97 ≤ c && c ≤ Char.ofNat 102) || (Char.ofNat 48 ≤ c && c ≤ Char.ofNat 57) || c == Char.ofNat 45

/-- The anchored regex `^([a-f0-9-]{36})/([a-f0-9-]{36})/preview\.v1/` of
`_process_csv_for_projects`: 36 id characters, a slash, 36 id characters,
then the literal `/preview.v1/`; returns the two captured groups. -/
def previewPatternMatch (key : String) : Option (String × String) :=
  let cs := key.data
  let u := cs.take 36
  let p := (cs.drop 37).take 36
  if u.length == 36 && u.all isHexDashChar && (cs.drop 36).take 1 == [Char.ofNat 47] &&
      p.length == 36 && p.all isHexDashChar && (cs.drop 73).take 12 == "/preview.v1/".data
  then some (String.mk u, String.mk p) else none

/-- Model of `_process_csv_for_projects`: one snapshot partition is scanned row by
row; rows with fewer than 2 fields are skipped, otherwise the key (second
column) is matched against the preview pattern and the captured
`(user_id, project_id)` pair is added to the result set. -/
def processCsvForProjects (rows : List (List String)) : Finset (String × String) :=
  (rows.filterMap fun row =>
    if row.length < 2 then none else previewPatternMatch (row.getD 1 "")).toFinset

/-- Model of `_parse_csv_files_fast`: the per-partition project sets are unioned
into one candidate set (orphan_cleaner.py 215-246). -/
def parseCsvFilesFast (csvs : List (List (List String))) : Finset (String × String) :=
  csvs.foldl (fun acc rows => acc ∪ processCsvForProjects rows) ∅

/-! Pass 2: `_process_csv_for_all_projects` (orphan_cleaner.py 57-122) -/

/-- The per-row body of `_process_csv_for_all_projects`: `none` means the
row is skipped (`continue`), `some (projectPath, key, size, lastModified)`
means the record is appended under `projectPath`.  Mirrors, in order: the
field-count guard, the `"/preview.v1/" in key` test, the
`len(parts) >= 3` test on `key.split("/")`, the candidate-set membership
test, and — only when both date bounds are supplied — the timestamp parse
and the inclusive range test. -/
def pass2Row (parseIso : String → Option Nat) (cands : Finset (String × String))
    (startDt endDt : Option Nat) (row : List String) :
    Option (String × String × Int × String) :=
  if row.length < 4 then none
  else if strContains (row.getD 1 "") "/preview.v1/" then
    match pySplitSlash (row.getD 1 "") with
    | u :: p :: _ :: _ =>
      if (u, p) ∈ cands then
        match startDt, endDt with
        | some s, some e =>
          match parseIso (row.getD 3 "") with
          | some t =>
            if s ≤ t ∧ t ≤ e then
              some (u ++ "/" ++ p, row.getD 1 "",
                parsePyInt (row.getD 2 ""), row.getD 3 "")
            else none
          | none => none
        | _, _ =>
          some (u ++ "/" ++ p, row.getD 1 "",
            parsePyInt (row.getD 2 ""), row.getD 3 "")
      else none
    | _ => none
  else none

/-- Append `v` to the entry of `k` in an insertion-ordered association
list, creating the entry at the end if absent — the
`if project_path not in d: d[project_path] = []` / `append` pattern. -/
def upsert {β : Type} (m : List (String × List β)) (k : String) (v : β) :
    List (String × List β) :=
  match m with
  | [] => [(k, [v])]
  | (k', vs) :: rest =>
    if k' = k then (k', vs ++ [v]) :: rest else (k', vs) :: upsert rest k v

/-- Model of `_process_csv_for_all_projects`: fold the per-row outcome over one
partition, grouping the included records by project path. -/
def processCsvForAllProjects (parseIso : String → Option Nat)
    (cands : Finset (String × String)) (startDt endDt : Option Nat)
    (rows : List (List String)) : List (String × List (String × Int × String)) :=
  rows.foldl (fun m row =>
    match pass2Row parseIso cands startDt endDt row with
    | some (path, r) => upsert m path r
    | none => m) []

/-- The flat sequence of records a partition contributes: exactly the rows
whose `pass2Row` outcome is an inclusion, in row order. -/
def includedRecords (parseIso : String → Option Nat)
    (cands : Finset (String × String)) (startDt endDt : Option Nat)
    (rows : List (List String)) : List (String × String × Int × String) :=
  rows.filterMap (pass2Row parseIso cands startDt endDt)

/-- Flatten a grouped index into (projectPath, value) entries. -/
def entriesOf {β : Type} (m : List (String × List β)) : List (String × β) :=
  (m.map fun pf => pf.2.map fun r => (pf.1, r)).flatten

/-- The merge loop of `_get_project_files_fast` (orphan_cleaner.py
302-317) for one partition result: every record is appended to the
accumulated index as a `(key, lastModified)` pair and its size is added
to the running total. -/
def mergeCsvResult (acc : List (String × List (String × String)) × Int)
    (csvRes : List (String × List (String × Int × String))) :
    List (String × List (String × String)) × Int :=
  csvRes.foldl (fun a pf =>
    pf.2.foldl (fun b r => (upsert b.1 pf.1 (r.1, r.2.2), b.2 + r.2.1)) a) acc

/-- Model of `_get_project_files_fast`: process every partition once for the whole
candidate set, merging the per-partition grouped results and accumulating
the byte total. -/
def getProjectFilesFast (parseIso : String → Option Nat)
    (cands : Finset (String × String)) (csvs : List (List (List String)))
    (startDt endDt : Option Nat) :
    List (String × List (String × String)) × Int :=
  csvs.foldl (fun acc rows =>
    mergeCsvResult acc (processCsvForAllProjects parseIso cands startDt endDt rows))
    ([], 0)

/-! Marker scanner (marker_scanner.py) -/

/-- Model of `replace(minute=0, second=0, microsecond=0)`: round a timestamp down
to its hour boundary. -/
def normalizeHour (t : Nat) : Nat :=
  t - t % 3600

/-- The `while current <= end_datetime` loop of `_scan_marker_prefix`
(marker_scanner.py 121-128): the inclusive list of hour timestamps from
`s` to `e` in steps of one hour. -/
def hoursList (s e : Nat) : List Nat :=
  if s ≤ e then s :: hoursList (s + 3600) e else []
termination_by e + 1 - s
decreasing_by simp_wf; omega

/-- The listing paths one `_scan_marker_prefix` call enumerates, one task
per path, tagged with the marker class. -/
def scanMarkerPaths (mclass : String) (s e : Nat) : List (String × Nat) :=
  (hoursList s e).map fun h => (mclass, h)

/-- Model of `_scan_single_path` (marker_scanner.py 15-52): from every listed key
whose `/`-split has at least 7 parts, extract `(parts[5], parts[6])`. -/
def scanSinglePath (keys : List String) : Finset (String × String) :=
  (keys.filterMap fun k =>
    let parts := pySplitSlash k
    if 7 ≤ parts.length then some (parts.getD 5 "", parts.getD 6 "") else none).toFinset

/-- Model of `_scan_marker_prefix`: union the per-hour results over the enumerated
paths (completion-order of the thread pool is irrelevant to the set). -/
def scanMarkerClass (store : String → Nat → List String) (mclass : String)
    (s e : Nat) : Finset (String × String) :=
  (hoursList s e).foldl (fun acc h => acc ∪ scanSinglePath (store mclass h)) ∅

/-- Python tuple comparison used by `sorted` on `(user_id, project_id)`
pairs. -/
def pairR (a b : String × String) : Prop :=
  a.1 < b.1 ∨ (a.1 = b.1 ∧ a.2 ≤ b.2)

instance : DecidableRel pairR := fun a b => by
  unfold pairR; infer_instance

instance : IsTrans (String × String) pairR where
  trans a b c hab hbc := by
    rcases hab with h | ⟨h, h2⟩ <;> rcases hbc with h3 | ⟨h3, h4⟩
    · exact Or.inl (lt_trans h h3)
    · exact Or.inl (h3 ▸ h)
    · exact Or.inl (h ▸ h3)
    · exact Or.inr ⟨h.trans h3, le_trans h2 h4⟩

instance : IsAntisymm (String × String) pairR where
  antisymm a b hab hba := by
    rcases hab with h | ⟨h, h2⟩ <;> rcases hba with h3 | ⟨h3, h4⟩
    · exact absurd (lt_trans h h3) (lt_irrefl _)
    · exact absurd h (h3 ▸ lt_irrefl _)
    · exact absurd h3 (h ▸ lt_irrefl _)
    · exact Prod.ext h (le_antisymm h2 h4)

instance : IsTotal (String × String) pairR where
  total a b := by
    rcases lt_trichotomy a.1 b.1 with h | h | h
    · exact Or.inl (Or.inl h)
    · rcases le_total a.2 b.2 with h2 | h2
      · exact Or.inl (Or.inr ⟨h, h2⟩)
      · exact Or.inr (Or.inr ⟨h.symm, h2⟩)
    · exact Or.inr (Or.inl h)

/-- Model of `scan_for_projects` (marker_scanner.py 64-105): round both endpoints
down to hour boundaries, scan the `preview.v1` and `v3` marker classes
over the inclusive hour range, and return the sorted intersection. -/
def scanForProjects (store : String → Nat → List String) (startDt endDt : Nat) :
    List (String × String) :=
  let s := normalizeHour startDt
  let e := normalizeHour endDt
  let previewProjects := scanMarkerClass store "preview.v1" s e
  let v3Projects := scanMarkerClass store "v3" s e
  (previewProjects ∩ v3Projects).sort pairR

/-- The full set of listing tasks one `scan_for_projects` call submits:
the hour paths of the `preview.v1` scan followed by those of the `v3`
scan. -/
def scanListingTasks (startDt endDt : Nat) : List (String × Nat) :=
  scanMarkerPaths "preview.v1" (normalizeHour startDt) (normalizeHour endDt) ++
  scanMarkerPaths "v3" (normalizeHour startDt) (normalizeHour endDt)

/-! Orphan reconciler: `find_orphaned_data` (orphan_cleaner.py 138-213) -/

/-- Step 3 of `find_orphaned_data`: `all_inventory_projects - valid_projects`. -/
def orphanedProjectsOf (allInv valid : Finset (String × String)) :
    Finset (String × String) :=
  allInv \ valid

/-- Step 3 of `find_orphaned_data`:
`all_inventory_projects.intersection(valid_projects)`. -/
def nonOrphanedProjectsOf (allInv valid : Finset (String × String)) :
    Finset (String × String) :=
  allInv ∩ valid

/-- Model of `find_orphaned_data`: default the window endpoints (`end` to now,
`start` to `end - timedelta(days=days_back)`), scan markers over the
window, build the candidate set from the inventory partitions, split it
into orphaned and non-orphaned projects, and collect the file records of
each with the same `(start, end)` pair as the date range. -/
def findOrphanedData (parseIso : String → Option Nat)
    (store : String → Nat → List String) (now daysBack : Nat)
    (startDt endDt : Option Nat) (csvs : List (List (List String)))
    (returnNonOrphaned : Bool) :
    List (String × List (String × String)) × Int ×
      Option (List (String × List (String × String))) :=
  let e := endDt.getD now
  let s := startDt.getD (e - daysBack * 86400)
  let valid := (scanForProjects store s e).toFinset
  let allInv := parseCsvFilesFast csvs
  let orphaned := orphanedProjectsOf allInv valid
  let nonOrphaned := nonOrphanedProjectsOf allInv valid
  let res := getProjectFilesFast parseIso orphaned csvs (some s) (some e)
  let nonRes :=
    if returnNonOrphaned ∧ nonOrphaned.Nonempty then
      some (getProjectFilesFast parseIso nonOrphaned csvs (some s) (some e)).1
    else none
  (res.1, res.2, nonRes)

/-! Deletion executor: `delete_orphaned_data` (orphan_cleaner.py 323-406) -/

/-- Response of one `delete_objects` call: `ok (some errs)` is a response
whose body carries an `Errors` list, `ok none` one without, `fail` an
exception raised by the call itself. -/
inductive DelResp where
  | ok (errs : Option (List String))
  | fail

/-- The per-project safety filter (orphan_cleaner.py 358-362): keep a
file path only if it contains `/preview.v1/` and does not end in
`.v3.gz`. -/
def previewFilesOf (files : List (String × String)) : List String :=
  files.filterMap fun fr =>
    if strContains fr.1 "/preview.v1/" && !strEndsWith fr.1 ".v3.gz" then some fr.1 else none

/-- The flattened `all_preview_files` list: the qualifying keys of every
project, concatenated in index order. -/
def qualifyingKeys (d : List (String × List (String × String))) : List String :=
  d.foldl (fun acc pf => acc ++ previewFilesOf pf.2) []

/-- Model of `total_filtered`: how many records the safety filter dropped. -/
def totalFilteredOf (d : List (String × List (String × String))) : Nat :=
  d.foldl (fun n pf => n + (pf.2.length - (previewFilesOf pf.2).length)) 0

/-- Model of `successful_deletes` for one batch: batch size minus the length of
the `Errors` list when present, the full batch size when absent, and 0
when the call raised. -/
def respSucc (r : DelResp) (batch : List String) : Int :=
  match r with
  | .ok (some errs) => (batch.length : Int) - errs.length
  | .ok none => batch.length
  | .fail => 0

/-- The `for i in range(0, len(all_preview_files), batch_size)` loop:
slice the next batch, issue its request, add its successful-delete count,
and continue with the next start index regardless of errors.  Returns the
final `files_deleted` and the batches issued, in order. -/
def deleteLoop (resp : Nat → List String → DelResp) (allFiles : List String)
    (bs : Nat) (i : Nat) : Int × List (List String) :=
  if h : bs = 0 ∨ allFiles.length ≤ i then (0, [])
  else
    let batch := (allFiles.drop i).take bs
    let rest := deleteLoop resp allFiles bs (i + bs)
    (respSucc (resp i batch) batch + rest.1, batch :: rest.2)
termination_by allFiles.length - i
decreasing_by simp_wf; omega

/-- Model of `delete_orphaned_data`: in a dry run, return the raw project and
record counts without issuing anything; otherwise run the safety filter,
batch the qualifying keys and drive the delete loop.  The third component
is the list of delete requests actually issued. -/
def deleteOrphanedData (resp : Nat → List String → DelResp)
    (orphanedFiles : List (String × List (String × String))) (dryRun : Bool)
    (batchSize : Nat) : Int × Int × List (List String) :=
  let totalProjects : Int := orphanedFiles.length
  let totalFiles : Int := ((orphanedFiles.map fun pf => pf.2.length).sum : Nat)
  if dryRun then (totalProjects, totalFiles, [])
  else
    let allPreviewFiles := qualifyingKeys orphanedFiles
    let r := deleteLoop resp allPreviewFiles batchSize 0
    (totalProjects, r.1, r.2)

/-- Consecutive chunks of `bs` elements, the last one possibly shorter;
empty for `bs = 0` (where the Python `range` call would raise). -/
def chunksOf {α : Type} (bs : Nat) (l : List α) : List (List α) :=
  if h : bs = 0 ∨ l.length = 0 then []
  else l.take bs :: chunksOf bs (l.drop bs)
termination_by l.length
decreasing_by simp_wf; omega

/-- Specification-side accounting of the delete loop: sum the
per-batch successful-delete counts over a batch list, advancing the start
index by `bs` per batch. -/
def batchSum (resp : Nat → List String → DelResp) (bs : Nat) :
    Nat → List (List String) → Int
  | _, [] => 0
  | i, b :: rest => respSucc (resp i b) b + batchSum resp bs (i + bs) rest

/-! Report generator: `generate_report` (orphan_cleaner.py 408-461) -/

/-- The emission order of `generate_report`:
`sorted(orphaned_files.keys())`. -/
def reportProjectOrder (orphanedFiles : List (String × List (String × String))) :
    List String :=
  (orphanedFiles.map Prod.fst).mergeSort fun a b => decide (a ≤ b)

/-- Model of `generate_report`: header with total counts, then one section per
project in sorted path order with the per-class breakdown (preview
files, `.v3.gz` files, and files in neither list), joined by newlines. -/
def generateReport (orphanedFiles : List (String × List (String × String))) :
    String :=
  let totalProjects := orphanedFiles.length
  let totalFiles := (orphanedFiles.map fun pf => pf.2.length).sum
  let header : List String :=
    ["# Orphaned Preview Data Report", "",
     "Total orphaned projects: " ++ toString totalProjects,
     "Total orphaned files: " ++ toString totalFiles,
     "", "## Projects and Files", ""]
  let body := (reportProjectOrder orphanedFiles).foldl (fun lines path =>
    let files := (List.lookup path orphanedFiles).getD []
    let previewFiles := files.filterMap fun fr =>
      if strContains fr.1 "/preview.v1/" then some fr.1 else none
    let v3Files := files.filterMap fun fr =>
      if strEndsWith fr.1 ".v3.gz" then some fr.1 else none
    let otherFiles := files.filterMap fun fr =>
      if fr.1 ∈ previewFiles ∨ fr.1 ∈ v3Files then none else some fr.1
    lines ++ ["### " ++ path, "  Files: " ++ toString files.length]
      ++ (if previewFiles.isEmpty then [] else
            ["  - Preview files: " ++ toString previewFiles.length])
      ++ (if v3Files.isEmpty then [] else
            ["  - V3 files: " ++ toString v3Files.length])
      ++ (if otherFiles.isEmpty then [] else
            ["  - Other files: " ++ toString otherFiles.length])
      ++ [""]) header
  String.intercalate "\n" body

/-! Generic fold lemmas -/

theorem foldl_append_flatten {α β : Type} (f : α → List β) :
    ∀ (d : List α) (init : List β),
      d.foldl (fun acc x => acc ++ f x) init = init ++ (d.map f).flatten := by
  intro d
  induction d with
  | nil => intro init; simp
  | cons a d ih => intro init; simp [ih]

theorem foldl_add_sum {α : Type} (g : α → Nat) :
    ∀ (d : List α) (init : Nat),
      d.foldl (fun n x => n + g x) init = init + (d.map g).sum := by
  intro d
  induction d with
  | nil => intro init; simp
  | cons a d ih => intro init; simp [ih]; omega

/-! Safety-filter lemmas -/

theorem qualifyingKeys_eq (d : List (String × List (String × String))) :
    qualifyingKeys d = (d.map fun pf => previewFilesOf pf.2).flatten :=
  foldl_append_flatten _ d []

theorem mem_previewFilesOf {k : String} {files : List (String × String)}
    (h : k ∈ previewFilesOf files) :
    strContains k "/preview.v1/" = true ∧ strEndsWith k ".v3.gz" = false := by
  unfold previewFilesOf at h
  rw [List.mem_filterMap] at h
  obtain ⟨fr, _, hif⟩ := h
  by_cases hc : (strContains fr.1 "/preview.v1/" && !strEndsWith fr.1 ".v3.gz") = true
  · rw [if_pos hc] at hif
    obtain rfl : fr.1 = k := by injection hif
    simpa [Bool.and_eq_true, Bool.not_eq_true'] using hc
  · rw [if_neg hc] at hif
    exact absurd hif (by simp)

theorem previewFilesOf_length_le (files : List (String × String)) :
    (previewFilesOf files).length ≤ files.length :=
  List.length_filterMap_le _ _

theorem totalFilteredOf_eq (d : List (String × List (String × String))) :
    totalFilteredOf d =
      (d.map fun pf => pf.2.length - (previewFilesOf pf.2).length).sum := by
  have h := foldl_add_sum
    (fun pf : String × List (String × String) =>
      pf.2.length - (previewFilesOf pf.2).length) d 0
  simpa [totalFilteredOf] using h

theorem qualifyingKeys_length_add (d : List (String × List (String × String))) :
    (qualifyingKeys d).length + totalFilteredOf d =
      (d.map fun pf => pf.2.length).sum := by
  rw [qualifyingKeys_eq, totalFilteredOf_eq, List.length_flatten, List.map_map]
  induction d with
  | nil => simp
  | cons pf d ih =>
    have hle := previewFilesOf_length_le pf.2
    simp only [List.map_cons, List.sum_cons, Function.comp] at *
    omega

/-! Chunking lemmas for the delete loop -/

theorem chunksOf_flatten {α : Type} (bs : Nat) (hbs : bs ≠ 0) :
    ∀ (n : Nat) (l : List α), l.length ≤ n → (chunksOf bs l).flatten = l := by
  intro n
  induction n with
  | zero =>
    intro l hl
    rw [chunksOf, dif_pos (Or.inr (by omega))]
    have : l = [] := by
      rw [← List.length_eq_zero]; omega
    simp [this]
  | succ n ih =>
    intro l hl
    rw [chunksOf]
    by_cases h0 : l.length = 0
    · rw [dif_pos (Or.inr h0)]
      rw [List.length_eq_zero] at h0
      simp [h0]
    · rw [dif_neg (by tauto)]
      have := ih (l.drop bs) (by simp [List.length_drop]; omega)
      simp [this, List.take_append_drop]

theorem chunksOf_length {α : Type} (bs : Nat) (hbs : bs ≠ 0) :
    ∀ (n : Nat) (l : List α), l.length ≤ n →
      (chunksOf bs l).length = (l.length + bs - 1) / bs := by
  intro n
  induction n with
  | zero =>
    intro l hl
    rw [chunksOf, dif_pos (Or.inr (by omega))]
    have h0 : l.length = 0 := by omega
    simp [h0, Nat.div_eq_of_lt (by omega : bs - 1 < bs)]
  | succ n ih =>
    intro l hl
    rw [chunksOf]
    by_cases h0 : l.length = 0
    · rw [dif_pos (Or.inr h0)]
      simp [h0, Nat.div_eq_of_lt (by omega : bs - 1 < bs)]
    · rw [dif_neg (by tauto)]
      have hrec := ih (l.drop bs) (by simp [List.length_drop]; omega)
      rw [List.length_cons, hrec, List.length_drop]
      by_cases hble : bs ≤ l.length
      · have h1 : l.length - bs + bs - 1 = l.length - 1 := by omega
        have h2 : l.length + bs - 1 = l.length - 1 + bs := by omega
        rw [h1, h2, Nat.add_div_right _ (show 0 < bs by omega)]
      · have h1 : l.length - bs + bs - 1 = bs - 1 := by omega
        have h2 : l.length + bs - 1 = l.length - 1 + bs := by omega
        rw [h1, h2, Nat.add_div_right _ (show 0 < bs by omega),
          Nat.div_eq_of_lt (show bs - 1 < bs by omega),
          Nat.div_eq_of_lt (show l.length - 1 < bs by omega)]

theorem mem_chunksOf {α : Type} (bs : Nat) (hbs : bs ≠ 0) :
    ∀ (n : Nat) (l : List α) (b : List α), l.length ≤ n →
      b ∈ chunksOf bs l → b ≠ [] ∧ b.length ≤ bs := by
  intro n
  induction n with
  | zero =>
    intro l b hl hb
    rw [chunksOf, dif_pos (Or.inr (by omega))] at hb
    exact absurd hb (by simp)
  | succ n ih =>
    intro l b hl hb
    rw [chunksOf] at hb
    by_cases h0 : l.length = 0
    · rw [dif_pos (Or.inr h0)] at hb
      exact absurd hb (by simp)
    · rw [dif_neg (by tauto)] at hb
      rcases List.mem_cons.mp hb with rfl | hmem
      · refine ⟨?_, List.length_take_le _ _⟩
        apply List.length_pos.mp
        rw [List.length_take]
        exact lt_min_iff.mpr ⟨by omega, by omega⟩
      · exact ih (l.drop bs) b (by simp [List.length_drop]; omega) hmem

theorem getD_chunksOf {α : Type} (bs : Nat) (hbs : bs ≠ 0) :
    ∀ (n : Nat) (l : List α) (j : Nat), l.length ≤ n →
      j + 1 < (chunksOf bs l).length →
      ((chunksOf bs l).getD j []).length = bs := by
  intro n
  induction n with
  | zero =>
    intro l j hl hj
    rw [chunksOf, dif_pos (Or.inr (by omega))] at hj
    simp at hj
  | succ n ih =>
    intro l j hl hj
    rw [chunksOf] at hj ⊢
    by_cases h0 : l.length = 0
    · rw [dif_pos (Or.inr h0)] at hj
      simp at hj
    · rw [dif_neg (by tauto)] at hj ⊢
      cases j with
      | zero =>
        rw [List.getD_cons_zero]
        simp only [List.length_cons] at hj
        have hne : chunksOf bs (l.drop bs) ≠ [] := by
          intro hemp
          rw [hemp] at hj
          simp at hj
        have hdrop : (l.drop bs).length ≠ 0 := by
          intro hz
          apply hne
          rw [chunksOf, dif_pos (Or.inr hz)]
        simp only [List.length_drop] at hdrop
        rw [List.length_take]
        exact min_eq_left (by omega)
      | succ j =>
        rw [List.getD_cons_succ]
        simp only [List.length_cons] at hj
        exact ih (l.drop bs) j (by simp [List.length_drop]; omega) (by omega)

/-! Delete-loop lemmas -/

theorem deleteLoop_spec (resp : Nat → List String → DelResp) (l : List String)
    (bs : Nat) (hbs : bs ≠ 0) :
    ∀ (n i : Nat), l.length - i ≤ n →
      (deleteLoop resp l bs i).2 = chunksOf bs (l.drop i) ∧
      (deleteLoop resp l bs i).1 = batchSum resp bs i (chunksOf bs (l.drop i)) := by
  intro n
  induction n with
  | zero =>
    intro i hi
    rw [deleteLoop, dif_pos (Or.inr (by omega)),
      chunksOf, dif_pos (Or.inr (by simp [List.length_drop]; omega))]
    exact ⟨rfl, rfl⟩
  | succ n ih =>
    intro i hi
    by_cases hle : l.length ≤ i
    · rw [deleteLoop, dif_pos (Or.inr hle),
        chunksOf, dif_pos (Or.inr (by simp [List.length_drop]; omega))]
      exact ⟨rfl, rfl⟩
    · rw [deleteLoop, dif_neg (by tauto)]
      have hrec := ih (i + bs) (by omega)
      rw [chunksOf, dif_neg (by simp [List.length_drop]; omega), List.drop_drop]
      refine ⟨?_, ?_⟩
      · simpa using hrec.1
      · simp only [batchSum]
        simpa using hrec.2

theorem deleteOrphanedData_false_spec (resp : Nat → List String → DelResp)
    (d : List (String × List (String × String))) (bs : Nat) (hbs : bs ≠ 0) :
    (deleteOrphanedData resp d false bs).2.2 = chunksOf bs (qualifyingKeys d) ∧
    (deleteOrphanedData resp d false bs).2.1 =
      batchSum resp bs 0 (chunksOf bs (qualifyingKeys d)) := by
  have h := deleteLoop_spec resp (qualifyingKeys d) bs hbs
    ((qualifyingKeys d).length) 0 (by omega)
  simp only [List.drop_zero] at h
  simpa [deleteOrphanedData] using h

theorem batchSum_ok_none (resp : Nat → List String → DelResp) (bs : Nat)
    (hresp : ∀ i b, resp i b = DelResp.ok none) :
    ∀ (i : Nat) (cs : List (List String)),
      batchSum resp bs i cs = ((cs.map List.length).sum : Nat) := by
  intro i cs
  induction cs generalizing i with
  | nil => simp [batchSum]
  | cons b rest ih =>
    simp [batchSum, hresp, respSucc, ih]

/-! Claims C1, C2, C8: the deletion executor -/

/-- Claim C1: with `dryRun = false` and any `batchSize > 0`, every key of
every batch passed to the bulk-delete call contains `/preview.v1/` and
does not end in `.v3.gz`; the keys dropped by the safety filter are
counted, so qualifying plus filtered counts add up to the total record
count of the input. -/
theorem deleteNeverPassesProtectedKeys (resp : Nat → List String → DelResp)
    (d : List (String × List (String × String))) (bs : Nat) (hbs : 0 < bs) :
    (∀ b ∈ (deleteOrphanedData resp d false bs).2.2, ∀ k ∈ b,
      strContains k "/preview.v1/" = true ∧ strEndsWith k ".v3.gz" = false) ∧
    (qualifyingKeys d).length + totalFilteredOf d =
      (d.map fun pf => pf.2.length).sum := by
  refine ⟨?_, qualifyingKeys_length_add d⟩
  intro b hb k hk
  rw [(deleteOrphanedData_false_spec resp d bs (by omega)).1] at hb
  have hkq : k ∈ qualifyingKeys d := by
    rw [← chunksOf_flatten bs (by omega) (qualifyingKeys d).length
      (qualifyingKeys d) (by omega)]
    exact List.mem_flatten.mpr ⟨b, hb, hk⟩
  rw [qualifyingKeys_eq] at hkq
  obtain ⟨l, hl, hkl⟩ := List.mem_flatten.mp hkq
  obtain ⟨pf, _, rfl⟩ := List.mem_map.mp hl
  exact mem_previewFilesOf hkl

/-- Witness for C1 at a concrete input: the one qualifying key of a
three-record input reaches a batch and satisfies the filter predicate. -/
theorem deleteNeverPassesProtectedKeys_witness :
    0 < 2 ∧
    (strContains "u/p/preview.v1/a.jpg" "/preview.v1/" = true ∧
      strEndsWith "u/p/preview.v1/a.jpg" ".v3.gz" = false) := by
  constructor
  · decide
  · have hq : qualifyingKeys
        [("u/p", [("u/p/preview.v1/a.jpg", "t1"), ("u/p/preview.v1/b.v3.gz", "t2"),
          ("x/other.txt", "t3")])] = ["u/p/preview.v1/a.jpg"] := by decide
    have hb : (deleteOrphanedData (fun _ _ => DelResp.ok none)
        [("u/p", [("u/p/preview.v1/a.jpg", "t1"), ("u/p/preview.v1/b.v3.gz", "t2"),
          ("x/other.txt", "t3")])] false 2).2.2 = [["u/p/preview.v1/a.jpg"]] := by
      rw [(deleteOrphanedData_false_spec _ _ 2 (by omega)).1, hq]
      rw [chunksOf, dif_neg (by simp)]
      rw [chunksOf, dif_pos (Or.inr (by simp))]
      simp
    exact (deleteNeverPassesProtectedKeys (fun _ _ => DelResp.ok none) _ 2 (by decide)).1
      _ (by rw [hb]; exact List.mem_singleton.mpr rfl)
      _ (List.mem_singleton.mpr rfl)

theorem previewFilesOf_all_qualify (fs : List (String × String))
    (h : ∀ fr ∈ fs, strContains fr.1 "/preview.v1/" = true ∧
      strEndsWith fr.1 ".v3.gz" = false) :
    previewFilesOf fs = fs.map Prod.fst := by
  induction fs with
  | nil => rfl
  | cons fr rest ih =>
    have hfr := h fr (by simp)
    unfold previewFilesOf at ih ⊢
    rw [List.filterMap_cons, if_pos (by simp [hfr.1, hfr.2])]
    rw [ih fun fr hfr => h fr (by simp [hfr])]
    rfl

theorem qualifyingKeys_all_qualify (d : List (String × List (String × String)))
    (hq : ∀ pf ∈ d, ∀ fr ∈ pf.2, strContains fr.1 "/preview.v1/" = true ∧
      strEndsWith fr.1 ".v3.gz" = false) :
    (qualifyingKeys d).length = (d.map fun pf => pf.2.length).sum := by
  rw [qualifyingKeys_eq, List.length_flatten, List.map_map]
  induction d with
  | nil => simp
  | cons pf rest ih =>
    simp only [List.map_cons, List.sum_cons, Function.comp]
    rw [previewFilesOf_all_qualify pf.2 (hq pf (by simp)),
      ih fun pf hpf => hq pf (by simp [hpf])]
    simp

/-- The input of the C2 counterexample: one project with one qualifying
record and one record that the safety filter drops. -/
def dC2 : List (String × List (String × String)) :=
  [("u/p", [("u/p/preview.v1/a.jpg", "t1"), ("u/p/f.v3.gz", "t2")])]

/-- A store whose delete responses never carry an `Errors` list. -/
def respNoErr : Nat → List String → DelResp := fun _ _ => DelResp.ok none

/-- Counterexample to claim C2 as stated: on an input holding a record
that fails the safety filter, the dry run reports 2 files, while only 1
key survives the filter and an error-free real run reports 1. -/
theorem dryRunCounts_counterexample :
    (deleteOrphanedData respNoErr dC2 true 1000).2.1 = 2 ∧
    (qualifyingKeys dC2).length = 1 ∧
    (deleteOrphanedData respNoErr dC2 false 1000).2.1 = 1 := by
  refine ⟨by decide, by decide, ?_⟩
  rw [(deleteOrphanedData_false_spec respNoErr dC2 1000 (by omega)).2]
  have hq : qualifyingKeys dC2 = ["u/p/preview.v1/a.jpg"] := by decide
  rw [hq, chunksOf, dif_neg (by simp), chunksOf, dif_pos (Or.inr (by simp))]
  simp [batchSum, respNoErr, respSucc]

/-- Claim C2 (amended): the dry run issues no delete request and returns
the project count together with the raw record count of the input,
before the safety filter; these counts coincide with the ones a real run
reports exactly when every input record passes the safety filter and the
store reports no per-key errors, as here. -/
theorem dryRunCountsPreFilter (resp : Nat → List String → DelResp)
    (d : List (String × List (String × String))) (bs : Nat) (hbs : 0 < bs)
    (hq : ∀ pf ∈ d, ∀ fr ∈ pf.2, strContains fr.1 "/preview.v1/" = true ∧
      strEndsWith fr.1 ".v3.gz" = false)
    (hresp : ∀ i b, resp i b = DelResp.ok none) :
    (deleteOrphanedData resp d true bs).2.2 = [] ∧
    (deleteOrphanedData resp d true bs).1 = (d.length : Int) ∧
    (deleteOrphanedData resp d true bs).2.1 =
      (((d.map fun pf => pf.2.length).sum : Nat) : Int) ∧
    (deleteOrphanedData resp d false bs).1 = (deleteOrphanedData resp d true bs).1 ∧
    (deleteOrphanedData resp d false bs).2.1 = (deleteOrphanedData resp d true bs).2.1 := by
  refine ⟨by simp [deleteOrphanedData], by simp [deleteOrphanedData],
    by simp [deleteOrphanedData], by simp [deleteOrphanedData], ?_⟩
  rw [(deleteOrphanedData_false_spec resp d bs (by omega)).2,
    batchSum_ok_none resp bs hresp]
  have hlen : ((chunksOf bs (qualifyingKeys d)).map List.length).sum =
      (qualifyingKeys d).length := by
    rw [← List.length_flatten,
      chunksOf_flatten bs (by omega) (qualifyingKeys d).length _ (by omega)]
  rw [hlen, qualifyingKeys_all_qualify d hq]
  simp [deleteOrphanedData]

/-- Witness for the amended C2 at a concrete all-qualifying input. -/
theorem dryRunCountsPreFilter_witness :
    0 < 2 ∧
    (deleteOrphanedData respNoErr [("u/p", [("u/p/preview.v1/a.jpg", "t1")])]
        false 2).2.1 =
      (deleteOrphanedData respNoErr [("u/p", [("u/p/preview.v1/a.jpg", "t1")])]
        true 2).2.1 :=
  ⟨by decide,
    (dryRunCountsPreFilter respNoErr [("u/p", [("u/p/preview.v1/a.jpg", "t1")])] 2
      (by decide) (by decide) (fun _ _ => rfl)).2.2.2.2⟩

/-- The C8 example input: 5 qualifying keys across two projects. -/
def d8 : List (String × List (String × String)) :=
  [("u/p", [("u/p/preview.v1/k1.jpg", "t"), ("u/p/preview.v1/k2.jpg", "t"),
    ("u/p/preview.v1/k3.jpg", "t")]),
   ("u/q", [("u/q/preview.v1/k4.jpg", "t"), ("u/q/preview.v1/k5.jpg", "t")])]

/-- The C8 example store: the batch starting at index 2 (the second batch
under batch size 2) reports one per-key error, all others none. -/
def resp8 : Nat → List String → DelResp := fun i _ =>
  if i = 2 then DelResp.ok (some ["u/p/preview.v1/k3.jpg"]) else DelResp.ok none

/-- Claim C8: with `dryRun = false` and `batchSize > 0`, the issued
requests are exactly the consecutive `batchSize`-sized chunks of the
flattened qualifying keys (the last chunk possibly smaller, every other
chunk full, `⌈n / batchSize⌉` chunks in total, covering the keys in
order), and `filesDeleted` is the sum over all issued batches of the
batch length minus its reported error count (0 for a failed call), no
response stopping the later batches. -/
theorem deletionBatchingAccounting (resp : Nat → List String → DelResp)
    (d : List (String × List (String × String))) (bs : Nat) (hbs : 0 < bs) :
    (deleteOrphanedData resp d false bs).2.2 = chunksOf bs (qualifyingKeys d) ∧
    (chunksOf bs (qualifyingKeys d)).flatten = qualifyingKeys d ∧
    (chunksOf bs (qualifyingKeys d)).length =
      ((qualifyingKeys d).length + bs - 1) / bs ∧
    (∀ b ∈ chunksOf bs (qualifyingKeys d), b ≠ [] ∧ b.length ≤ bs) ∧
    (∀ j, j + 1 < (chunksOf bs (qualifyingKeys d)).length →
      ((chunksOf bs (qualifyingKeys d)).getD j []).length = bs) ∧
    (deleteOrphanedData resp d false bs).2.1 =
      batchSum resp bs 0 (chunksOf bs (qualifyingKeys d)) := by
  refine ⟨(deleteOrphanedData_false_spec resp d bs (by omega)).1,
    chunksOf_flatten bs (by omega) (qualifyingKeys d).length _ (by omega),
    chunksOf_length bs (by omega) (qualifyingKeys d).length _ (by omega),
    fun b hb => mem_chunksOf bs (by omega) (qualifyingKeys d).length _ b (by omega) hb,
    fun j hj => getD_chunksOf bs (by omega) (qualifyingKeys d).length _ j (by omega) hj,
    (deleteOrphanedData_false_spec resp d bs (by omega)).2⟩

/-- Witness for C8 at the example of the claim: batch size 2 over 5
qualifying keys with one key error in the second batch yields 3 issued
batches of sizes 2, 2, 1 and a `filesDeleted` of 4. -/
theorem deletionBatchingAccounting_witness :
    0 < 2 ∧
    (deleteOrphanedData resp8 d8 false 2).2.1 =
      batchSum resp8 2 0 (chunksOf 2 (qualifyingKeys d8)) ∧
    (deleteOrphanedData resp8 d8 false 2).2.1 = 4 ∧
    (chunksOf 2 (qualifyingKeys d8)).map List.length = [2, 2, 1] := by
  have hthm := (deletionBatchingAccounting resp8 d8 2 (by decide)).2.2.2.2.2
  have hq : qualifyingKeys d8 =
      ["u/p/preview.v1/k1.jpg", "u/p/preview.v1/k2.jpg", "u/p/preview.v1/k3.jpg",
        "u/q/preview.v1/k4.jpg", "u/q/preview.v1/k5.jpg"] := by decide
  have hch : chunksOf 2 (qualifyingKeys d8) =
      [["u/p/preview.v1/k1.jpg", "u/p/preview.v1/k2.jpg"],
       ["u/p/preview.v1/k3.jpg", "u/q/preview.v1/k4.jpg"],
       ["u/q/preview.v1/k5.jpg"]] := by
    rw [hq]
    simp [chunksOf]
  refine ⟨by decide, hthm, ?_, by rw [hch]; decide⟩
  rw [hthm, hch]
  simp [batchSum, resp8, respSucc]

/-! Index-entry lemmas for the pass-2 collection -/

theorem entriesOf_cons {β : Type} (pf : String × List β) (m : List (String × List β)) :
    entriesOf (pf :: m) = (pf.2.map fun r => (pf.1, r)) ++ entriesOf m := by
  simp [entriesOf]

theorem mem_entriesOf {β : Type} {m : List (String × List β)}
    {pf : String × List β} (hpf : pf ∈ m) {r : β} (hr : r ∈ pf.2) :
    (pf.1, r) ∈ entriesOf m := by
  unfold entriesOf
  rw [List.mem_flatten]
  exact ⟨pf.2.map fun r => (pf.1, r), List.mem_map.mpr ⟨pf, hpf, rfl⟩,
    List.mem_map.mpr ⟨r, hr, rfl⟩⟩

theorem entriesOf_upsert {β : Type} (m : List (String × List β)) (k : String) (v : β) :
    (entriesOf (upsert m k v)).Perm (entriesOf m ++ [(k, v)]) := by
  induction m with
  | nil => simp [upsert, entriesOf]
  | cons pf rest ih =>
    obtain ⟨k', vs⟩ := pf
    rw [upsert]
    by_cases hk : k' = k
    · subst hk
      rw [if_pos rfl, entriesOf_cons, entriesOf_cons]
      simp only [List.map_append, List.map_cons, List.map_nil]
      rw [List.append_assoc, List.append_assoc]
      exact List.Perm.append_left _ List.perm_append_comm
    · rw [if_neg hk, entriesOf_cons, entriesOf_cons, List.append_assoc]
      exact List.Perm.append_left _ ih

theorem entriesOf_foldl_pass2 (parseIso : String → Option Nat)
    (cands : Finset (String × String)) (sO eO : Option Nat) :
    ∀ (rows : List (List String)) (acc : List (String × List (String × Int × String))),
      (entriesOf (rows.foldl (fun m row =>
          match pass2Row parseIso cands sO eO row with
          | some (path, r) => upsert m path r
          | none => m) acc)).Perm
        (entriesOf acc ++ rows.filterMap (pass2Row parseIso cands sO eO)) := by
  intro rows
  induction rows with
  | nil => intro acc; simp
  | cons row rest ih =>
    intro acc
    rw [List.foldl_cons, List.filterMap_cons]
    cases h : pass2Row parseIso cands sO eO row with
    | none => simpa [h] using ih acc
    | some pr =>
      obtain ⟨path, r⟩ := pr
      simp only [h]
      have hstep : (entriesOf acc ++ [(path, r)]) ++
          rest.filterMap (pass2Row parseIso cands sO eO) =
          entriesOf acc ++ ((path, r) ::
            rest.filterMap (pass2Row parseIso cands sO eO)) := by simp
      rw [← hstep]
      exact (ih _).trans (List.Perm.append_right _ (entriesOf_upsert acc path r))

theorem entriesOf_processCsvForAllProjects (parseIso : String → Option Nat)
    (cands : Finset (String × String)) (sO eO : Option Nat)
    (rows : List (List String)) :
    (entriesOf (processCsvForAllProjects parseIso cands sO eO rows)).Perm
      (includedRecords parseIso cands sO eO rows) := by
  have h := entriesOf_foldl_pass2 parseIso cands sO eO rows []
  simpa [processCsvForAllProjects, includedRecords, entriesOf] using h

/-- The flat record sequence the whole pass-2 collection includes, in
partition order. -/
def includedRecordsAll (parseIso : String → Option Nat)
    (cands : Finset (String × String)) (sO eO : Option Nat)
    (csvs : List (List (List String))) : List (String × String × Int × String) :=
  (csvs.map fun rows => includedRecords parseIso cands sO eO rows).flatten

theorem flatFold_spec :
    ∀ (es : List (String × String × Int × String))
      (acc : List (String × List (String × String)) × Int),
      (es.foldl (fun b e => (upsert b.1 e.1 (e.2.1, e.2.2.2), b.2 + e.2.2.1)) acc).2 =
        acc.2 + (es.map fun e => e.2.2.1).sum ∧
      (entriesOf (es.foldl
          (fun b e => (upsert b.1 e.1 (e.2.1, e.2.2.2), b.2 + e.2.2.1)) acc).1).Perm
        (entriesOf acc.1 ++ es.map fun e => (e.1, e.2.1, e.2.2.2)) := by
  intro es
  induction es with
  | nil => intro acc; simp
  | cons e rest ih =>
    intro acc
    rw [List.foldl_cons]
    obtain ⟨h1, h2⟩ := ih (upsert acc.1 e.1 (e.2.1, e.2.2.2), acc.2 + e.2.2.1)
    refine ⟨?_, ?_⟩
    · rw [h1]
      simp only [List.map_cons, List.sum_cons]
      ring
    · have hstep : (entriesOf acc.1 ++ [(e.1, e.2.1, e.2.2.2)]) ++
          (rest.map fun e => (e.1, e.2.1, e.2.2.2)) =
          entriesOf acc.1 ++ ((e :: rest).map fun e => (e.1, e.2.1, e.2.2.2)) := by
        simp
      rw [← hstep]
      exact h2.trans (List.Perm.append_right _
        (entriesOf_upsert acc.1 e.1 (e.2.1, e.2.2.2)))

theorem mergeCsvResult_eq_flat
    (acc : List (String × List (String × String)) × Int)
    (csvRes : List (String × List (String × Int × String))) :
    mergeCsvResult acc csvRes = (entriesOf csvRes).foldl
      (fun b e => (upsert b.1 e.1 (e.2.1, e.2.2.2), b.2 + e.2.2.1)) acc := by
  induction csvRes generalizing acc with
  | nil => rfl
  | cons pf rest ih =>
    simp only [mergeCsvResult] at ih ⊢
    rw [List.foldl_cons, entriesOf_cons, List.foldl_append, List.foldl_map]
    exact ih _

theorem getProjectFilesFast_fold_spec (parseIso : String → Option Nat)
    (cands : Finset (String × String)) (sO eO : Option Nat) :
    ∀ (csvs : List (List (List String)))
      (acc : List (String × List (String × String)) × Int),
      ((csvs.foldl (fun acc rows =>
          mergeCsvResult acc (processCsvForAllProjects parseIso cands sO eO rows))
          acc).2 =
        acc.2 + ((includedRecordsAll parseIso cands sO eO csvs).map
          fun e => e.2.2.1).sum) ∧
      (entriesOf (csvs.foldl (fun acc rows =>
          mergeCsvResult acc (processCsvForAllProjects parseIso cands sO eO rows))
          acc).1).Perm
        (entriesOf acc.1 ++ (includedRecordsAll parseIso cands sO eO csvs).map
          fun e => (e.1, e.2.1, e.2.2.2)) := by
  intro csvs
  induction csvs with
  | nil => intro acc; simp [includedRecordsAll]
  | cons rows rest ih =>
    intro acc
    rw [List.foldl_cons]
    have hperm := entriesOf_processCsvForAllProjects parseIso cands sO eO rows
    have hflat := flatFold_spec
      (entriesOf (processCsvForAllProjects parseIso cands sO eO rows)) acc
    rw [← mergeCsvResult_eq_flat] at hflat
    obtain ⟨ihs, ihp⟩ :=
      ih (mergeCsvResult acc (processCsvForAllProjects parseIso cands sO eO rows))
    have hall : includedRecordsAll parseIso cands sO eO (rows :: rest) =
        includedRecords parseIso cands sO eO rows ++
          includedRecordsAll parseIso cands sO eO rest := by
      simp [includedRecordsAll]
    refine ⟨?_, ?_⟩
    · rw [ihs, hflat.1, hall, List.map_append, List.sum_append,
        (hperm.map fun e => e.2.2.1).sum_eq]
      ring
    · rw [hall, List.map_append, ← List.append_assoc]
      exact ihp.trans (List.Perm.append_right _
        (hflat.2.trans (List.Perm.append_left _ (hperm.map _))))

theorem getProjectFilesFast_entries (parseIso : String → Option Nat)
    (cands : Finset (String × String)) (csvs : List (List (List String)))
    (sO eO : Option Nat) :
    (getProjectFilesFast parseIso cands csvs sO eO).2 =
      ((includedRecordsAll parseIso cands sO eO csvs).map fun e => e.2.2.1).sum ∧
    (entriesOf (getProjectFilesFast parseIso cands csvs sO eO).1).Perm
      ((includedRecordsAll parseIso cands sO eO csvs).map
        fun e => (e.1, e.2.1, e.2.2.2)) := by
  have h := getProjectFilesFast_fold_spec parseIso cands sO eO csvs ([], 0)
  simpa [getProjectFilesFast, entriesOf] using h

/-- Inversion of the pass-2 row decision: an included record consists of
the row's key, parsed size and timestamp fields; its key contains the
preview segment, splits into at least three components whose first two
form a candidate pair naming the project path; and whenever both date
bounds were supplied, its timestamp parses into the inclusive range. -/
theorem pass2Row_some_inv {parseIso : String → Option Nat}
    {cands : Finset (String × String)} {sO eO : Option Nat} {row : List String}
    {path key : String} {size : Int} {lm : String}
    (h : pass2Row parseIso cands sO eO row = some (path, key, size, lm)) :
    key = row.getD 1 "" ∧ size = parsePyInt (row.getD 2 "") ∧ lm = row.getD 3 "" ∧
    strContains key "/preview.v1/" = true ∧
    (∃ u p c tail, pySplitSlash key = u :: p :: c :: tail ∧ (u, p) ∈ cands ∧
      path = u ++ "/" ++ p) ∧
    (∀ s e, sO = some s → eO = some e →
      ∃ t, parseIso lm = some t ∧ s ≤ t ∧ t ≤ e) := by
  unfold pass2Row at h
  split at h
  · simp at h
  · rename_i h4
    split at h
    · rename_i hprev
      split at h
      · rename_i u p c tail heq
        split at h
        · rename_i hcand
          split at h
          · rename_i s e
            split at h
            · rename_i t hts
              split at h
              · rename_i hrange
                simp only [Option.some.injEq, Prod.mk.injEq] at h
                obtain ⟨hpath, hkey, hsize, hlm⟩ := h
                subst hpath; subst hkey; subst hsize; subst hlm
                exact ⟨rfl, rfl, rfl, hprev, ⟨u, p, c, tail, heq, hcand, rfl⟩,
                  fun s' e' hs he => by
                    obtain rfl : s = s' := by injection hs
                    obtain rfl : e = e' := by injection he
                    exact ⟨t, hts, hrange.1, hrange.2⟩⟩
              · simp at h
            · simp at h
          · rename_i hnotboth
            simp only [Option.some.injEq, Prod.mk.injEq] at h
            obtain ⟨hpath, hkey, hsize, hlm⟩ := h
            subst hpath; subst hkey; subst hsize; subst hlm
            exact ⟨rfl, rfl, rfl, hprev, ⟨u, p, c, tail, heq, hcand, rfl⟩,
              fun s' e' hs he => (hnotboth s' e' hs he).elim⟩
        · simp at h
      · simp at h
    · simp at h

/-! Claims C6, C3, C10: the pass-2 collection and the reconciler -/

/-- Claim C6: the byte total returned by the pass-2 collection is the sum
of the parsed `sizeBytes` of exactly the records included after the
date-range (and namespace and candidate-membership) tests, and the index
entries are precisely those records up to grouping, so a record excluded
by any of the tests contributes neither an index entry nor bytes. -/
theorem totalBytesExactSum (parseIso : String → Option Nat)
    (cands : Finset (String × String)) (sO eO : Option Nat)
    (csvs : List (List (List String))) :
    (getProjectFilesFast parseIso cands csvs sO eO).2 =
      ((includedRecordsAll parseIso cands sO eO csvs).map fun e => e.2.2.1).sum ∧
    (entriesOf (getProjectFilesFast parseIso cands csvs sO eO).1).Perm
      ((includedRecordsAll parseIso cands sO eO csvs).map
        fun e => (e.1, e.2.1, e.2.2.2)) :=
  getProjectFilesFast_entries parseIso cands csvs sO eO

/-- Concrete model of the external ISO-8601 timestamp parser used in
witnesses: a plain decimal seconds value. -/
def parseDigits : String → Option Nat := fun s => digitsVal? s.data

/-- Witness for C6 at a concrete one-partition input. -/
theorem totalBytesExactSum_witness :
    (getProjectFilesFast parseDigits {("u", "p")}
        [[["b", "u/p/preview.v1/f.jpg", "10", "t"]]] none none).2 =
      ((includedRecordsAll parseDigits {("u", "p")} none none
        [[["b", "u/p/preview.v1/f.jpg", "10", "t"]]]).map fun e => e.2.2.1).sum ∧
    (entriesOf (getProjectFilesFast parseDigits {("u", "p")}
        [[["b", "u/p/preview.v1/f.jpg", "10", "t"]]] none none).1).Perm
      ((includedRecordsAll parseDigits {("u", "p")} none none
        [[["b", "u/p/preview.v1/f.jpg", "10", "t"]]]).map
        fun e => (e.1, e.2.1, e.2.2.2)) :=
  totalBytesExactSum parseDigits {("u", "p")} none none
    [[["b", "u/p/preview.v1/f.jpg", "10", "t"]]]

/-- Counterexample to claim C3 as stated: the pass-2 collection adds a
record whose key has the preview segment at the wrong depth (so the key
is not of the shape `<ownerId>/<projectId>/preview.<version>/<file>`)
and a record whose key carries the upload-class suffix `.v3.gz`. -/
theorem pass2NamespaceShape_counterexample :
    processCsvForAllProjects parseDigits {("u", "p")} none none
        [["b", "u/p/deep/preview.v1/f.jpg", "10", "t"],
         ["b", "u/p/preview.v1/g.v3.gz", "5", "t"]] =
      [("u/p", [("u/p/deep/preview.v1/f.jpg", 10, "t"),
        ("u/p/preview.v1/g.v3.gz", 5, "t")])] ∧
    (pySplitSlash "u/p/deep/preview.v1/f.jpg").length = 5 ∧
    strEndsWith "u/p/preview.v1/g.v3.gz" ".v3.gz" = true := by decide

/-- Claim C3 (amended): every record the pass-2 collection adds to the
index has a key containing the `/preview.v1/` namespace segment whose
first two `/`-separated components form a candidate project, and it is
filed under that project path; however, keys with extra path components
around the preview segment, or carrying the upload-class suffix below
it, are still accepted — upload-suffixed keys are only removed later by
the deletion safety filter. -/
theorem pass2AddsOnlyPreviewSegmentKeys (parseIso : String → Option Nat)
    (cands : Finset (String × String)) (sO eO : Option Nat)
    (rows : List (List String)) (pf : String × List (String × Int × String))
    (r : String × Int × String)
    (hpf : pf ∈ processCsvForAllProjects parseIso cands sO eO rows)
    (hr : r ∈ pf.2) :
    strContains r.1 "/preview.v1/" = true ∧
    3 ≤ (pySplitSlash r.1).length ∧
    ((pySplitSlash r.1).getD 0 "", (pySplitSlash r.1).getD 1 "") ∈ cands ∧
    pf.1 = (pySplitSlash r.1).getD 0 "" ++ "/" ++ (pySplitSlash r.1).getD 1 "" := by
  have hent : (pf.1, r) ∈ includedRecords parseIso cands sO eO rows :=
    (entriesOf_processCsvForAllProjects parseIso cands sO eO rows).mem_iff.mp
      (mem_entriesOf hpf hr)
  rw [includedRecords, List.mem_filterMap] at hent
  obtain ⟨row, _, hrow⟩ := hent
  obtain ⟨key, size, lm⟩ := r
  have hinv := pass2Row_some_inv hrow
  obtain ⟨u, p, c, tail, hsplit, hcand, hpath⟩ := hinv.2.2.2.2.1
  refine ⟨hinv.2.2.2.1, ?_, ?_, ?_⟩
  · rw [hsplit]; simp
  · rw [hsplit]; simpa using hcand
  · rw [hsplit]; simpa using hpath

/-- Witness for the amended C3 at a record with the preview segment at
depth three. -/
theorem pass2AddsOnlyPreviewSegmentKeys_witness :
    strContains "u/p/deep/preview.v1/f.jpg" "/preview.v1/" = true ∧
    3 ≤ (pySplitSlash "u/p/deep/preview.v1/f.jpg").length ∧
    ((pySplitSlash "u/p/deep/preview.v1/f.jpg").getD 0 "",
      (pySplitSlash "u/p/deep/preview.v1/f.jpg").getD 1 "") ∈
        ({("u", "p")} : Finset (String × String)) ∧
    "u/p" = (pySplitSlash "u/p/deep/preview.v1/f.jpg").getD 0 "" ++ "/" ++
      (pySplitSlash "u/p/deep/preview.v1/f.jpg").getD 1 "" :=
  pass2AddsOnlyPreviewSegmentKeys parseDigits {("u", "p")} none none
    [["b", "u/p/deep/preview.v1/f.jpg", "10", "t"]]
    ("u/p", [("u/p/deep/preview.v1/f.jpg", 10, "t")])
    ("u/p/deep/preview.v1/f.jpg", 10, "t") (by decide) (by decide)

theorem getProjectFilesFast_range (parseIso : String → Option Nat)
    (cands : Finset (String × String)) (csvs : List (List (List String)))
    (s e : Nat) (pf : String × List (String × String)) (r : String × String)
    (hpf : pf ∈ (getProjectFilesFast parseIso cands csvs (some s) (some e)).1)
    (hr : r ∈ pf.2) :
    ∃ t, parseIso r.2 = some t ∧ s ≤ t ∧ t ≤ e := by
  have hent := (getProjectFilesFast_entries parseIso cands csvs
    (some s) (some e)).2.mem_iff.mp (mem_entriesOf hpf hr)
  rw [List.mem_map] at hent
  obtain ⟨rec, hmem, heq⟩ := hent
  obtain ⟨rpath, rkey, rsize, rlm⟩ := rec
  rw [includedRecordsAll, List.mem_flatten] at hmem
  obtain ⟨lrec, hl, hrecl⟩ := hmem
  rw [List.mem_map] at hl
  obtain ⟨rows, _, rfl⟩ := hl
  rw [includedRecords, List.mem_filterMap] at hrecl
  obtain ⟨row, _, hrow⟩ := hrecl
  have hinv := pass2Row_some_inv hrow
  obtain ⟨t, hts, h1, h2⟩ := hinv.2.2.2.2.2 s e rfl rfl
  simp only [Prod.mk.injEq] at heq
  have hlm : r.2 = rlm := by rw [← heq.2]
  exact ⟨t, by rw [hlm]; exact hts, h1, h2⟩

/-- Claim C10: `find_orphaned_data` always passes a fully-populated date
range — `start` defaulting to `end - days_back` days and `end` to now —
to both file-collection passes, so every record of the returned orphaned
and non-orphaned indices has a timestamp that parses and lies in that
window, and the no-filter branch of the pass-2 collection is not
reachable from this entry point. -/
theorem findOrphanedDataAlwaysDateFiltered (parseIso : String → Option Nat)
    (store : String → Nat → List String) (now daysBack : Nat)
    (sO eO : Option Nat) (csvs : List (List (List String))) (retNon : Bool)
    (pf : String × List (String × String)) (r : String × String)
    (hpf : pf ∈ (findOrphanedData parseIso store now daysBack sO eO csvs retNon).1 ∨
      ∃ m, (findOrphanedData parseIso store now daysBack sO eO csvs retNon).2.2 =
        some m ∧ pf ∈ m)
    (hr : r ∈ pf.2) :
    (parseIso r.2).isSome = true ∧
    ∀ t, parseIso r.2 = some t →
      sO.getD (eO.getD now - daysBack * 86400) ≤ t ∧ t ≤ eO.getD now := by
  have hkey : ∃ t, parseIso r.2 = some t ∧
      sO.getD (eO.getD now - daysBack * 86400) ≤ t ∧ t ≤ eO.getD now := by
    rcases hpf with hpf | ⟨m, hm, hpfm⟩
    · simp only [findOrphanedData] at hpf
      exact getProjectFilesFast_range _ _ _ _ _ _ _ hpf hr
    · simp only [findOrphanedData] at hm
      split at hm
      · injection hm with hm'
        subst hm'
        exact getProjectFilesFast_range _ _ _ _ _ _ _ hpfm hr
      · simp at hm
  obtain ⟨t₀, ht₀, hb₀⟩ := hkey
  refine ⟨by rw [ht₀]; rfl, fun t ht => ?_⟩
  rw [ht] at ht₀
  obtain rfl : t₀ = t := by injection ht₀ with h; exact h.symm
  exact hb₀

/-! Claim C5: the orphan / non-orphan split -/

/-- Claim C5: step 3 of `find_orphaned_data` splits the candidate set
into orphaned (`candidates - valid`) and non-orphaned
(`candidates ∩ valid`) projects; the two sets are disjoint and their
union is contained in the candidate set, so a project key appears in at
most one of them. -/
theorem orphanPartitionDisjoint (allInv valid : Finset (String × String)) :
    orphanedProjectsOf allInv valid ∩ nonOrphanedProjectsOf allInv valid = ∅ ∧
    orphanedProjectsOf allInv valid ∪ nonOrphanedProjectsOf allInv valid ⊆ allInv := by
  constructor
  · ext x
    simp only [orphanedProjectsOf, nonOrphanedProjectsOf, Finset.mem_inter,
      Finset.mem_sdiff, Finset.not_mem_empty, iff_false]
    tauto
  · intro x hx
    rcases Finset.mem_union.mp hx with h | h
    · exact (Finset.mem_sdiff.mp h).1
    · exact (Finset.mem_inter.mp h).1

/-- Witness for C5 at concrete candidate and marker sets. -/
theorem orphanPartitionDisjoint_witness :
    orphanedProjectsOf {("a", "b"), ("c", "d")} {("c", "d")} ∩
      nonOrphanedProjectsOf {("a", "b"), ("c", "d")} {("c", "d")} = ∅ ∧
    orphanedProjectsOf {("a", "b"), ("c", "d")} {("c", "d")} ∪
      nonOrphanedProjectsOf {("a", "b"), ("c", "d")} {("c", "d")} ⊆
        {("a", "b"), ("c", "d")} :=
  orphanPartitionDisjoint {("a", "b"), ("c", "d")} {("c", "d")}

/-! Claim C7: fail-closed timestamp handling -/

/-- Claim C7: a row that passes the field-count, namespace and candidate
tests but whose timestamp does not parse is excluded exactly when both
date bounds are supplied, and included (fail-open) when at least one
bound is absent. -/
theorem unparseableTimestampFailClosed (parseIso : String → Option Nat)
    (cands : Finset (String × String)) (sO eO : Option Nat) (row : List String)
    (u p c : String) (tail : List String)
    (hlen : ¬row.length < 4)
    (hprev : strContains (row.getD 1 "") "/preview.v1/" = true)
    (hsplit : pySplitSlash (row.getD 1 "") = u :: p :: c :: tail)
    (hcand : (u, p) ∈ cands)
    (hts : parseIso (row.getD 3 "") = none) :
    pass2Row parseIso cands sO eO row =
      if sO.isSome ∧ eO.isSome then none
      else some (u ++ "/" ++ p, row.getD 1 "",
        parsePyInt (row.getD 2 ""), row.getD 3 "") := by
  unfold pass2Row
  rw [if_neg hlen, if_pos hprev]
  simp only [hsplit]
  rw [if_pos hcand]
  have hts' : parseIso (row[3]?.getD "") = none := by
    rw [← List.getD_eq_getElem?_getD]; exact hts
  cases sO <;> cases eO <;> simp [hts']

/-- Witness for C7: an unparseable timestamp under an active date filter
is excluded. -/
theorem unparseableTimestampFailClosed_witness :
    pass2Row parseDigits {("u", "p")} (some 0) (some 10)
      ["b", "u/p/preview.v1/f.jpg", "5", "bad"] = none := by
  have h := unparseableTimestampFailClosed parseDigits {("u", "p")} (some 0) (some 10)
    ["b", "u/p/preview.v1/f.jpg", "5", "bad"] "u" "p" "preview.v1" ["f.jpg"]
    (by decide) (by decide) (by decide) (by decide) (by decide)
  simpa using h

/-! Claim C4: listing-task enumeration of the marker scanner -/

theorem hoursList_length : ∀ (n s e : Nat), e + 1 - s ≤ n →
    (hoursList s e).length = if s ≤ e then (e - s) / 3600 + 1 else 0 := by
  intro n
  induction n with
  | zero =>
    intro s e h
    have hse : ¬s ≤ e := by omega
    rw [hoursList, if_neg hse, if_neg hse]
    rfl
  | succ n ih =>
    intro s e h
    rw [hoursList]
    by_cases hse : s ≤ e
    · rw [if_pos hse, if_pos hse, List.length_cons, ih (s + 3600) e (by omega)]
      by_cases h2 : s + 3600 ≤ e
      · rw [if_pos h2,
          Nat.div_eq_sub_div (by omega) (by omega : 3600 ≤ e - s),
          show e - (s + 3600) = e - s - 3600 by omega]
      · rw [if_neg h2, Nat.div_eq_of_lt (by omega : e - s < 3600)]
    · rw [if_neg hse, if_neg hse]
      rfl

theorem normalizeHour_mono {s e : Nat} (h : s ≤ e) :
    normalizeHour s ≤ normalizeHour e := by
  unfold normalizeHour
  have hs := Nat.div_add_mod s 3600
  have he := Nat.div_add_mod e 3600
  have hdiv : s / 3600 ≤ e / 3600 := Nat.div_le_div_right h
  omega

theorem finsetSortSingleton {α : Type} (r : α → α → Prop) [DecidableRel r]
    [IsTrans α r] [IsAntisymm α r] [IsTotal α r] (a : α) :
    Finset.sort r {a} = [a] := by
  have h := Finset.sort_perm_toList r ({a} : Finset α)
  rw [Finset.toList_singleton] at h
  exact List.perm_singleton.mp h

/-- The store of the C4 counterexample: every path lists one marker key
for project `(u1, p1)`. -/
def storeC4 : String → Nat → List String := fun _ _ =>
  ["preview.v1/2024/01/01/00/u1/p1"]

/-- Counterexample to claim C4 as stated: a zero-length window (start =
end = hour 0) enumerates 2 listing tasks, not 0, and the scan over a
store holding a marker in that hour returns a nonempty result. -/
theorem scanTaskCount_counterexample :
    (scanListingTasks 0 0).length = 2 ∧
    scanForProjects storeC4 0 0 = [("u1", "p1")] := by
  constructor
  · simp [scanListingTasks, scanMarkerPaths, normalizeHour, hoursList]
  · have hsp : scanSinglePath ["preview.v1/2024/01/01/00/u1/p1"] =
        {("u1", "p1")} := by decide
    have hh : hoursList (normalizeHour 0) (normalizeHour 0) = [0] := by
      simp [normalizeHour, hoursList]
    have hmc : ∀ mclass, scanMarkerClass storeC4 mclass
        (normalizeHour 0) (normalizeHour 0) = {("u1", "p1")} := by
      intro mclass
      rw [scanMarkerClass, hh]
      simp [storeC4, hsp]
    simp only [scanForProjects]
    rw [hmc, hmc, Finset.inter_self]
    exact finsetSortSingleton pairR ("u1", "p1")

/-- Claim C4 (amended): the scanner normalizes both endpoints down to
hour boundaries and enumerates `((end − start in hours) + 1) × 2` hourly
listing tasks, both boundary hours inclusive; in particular a zero-length
window enumerates 2 listing tasks (one per marker class) over the hour
containing the endpoints, so its result depends on the store contents
there rather than being empty. -/
theorem scanTaskCountInclusive (startDt endDt : Nat) (h : startDt ≤ endDt) :
    (scanListingTasks startDt endDt).length =
      ((normalizeHour endDt - normalizeHour startDt) / 3600 + 1) * 2 := by
  rw [scanListingTasks, List.length_append, scanMarkerPaths, scanMarkerPaths,
    List.length_map, List.length_map,
    hoursList_length (normalizeHour endDt + 1 - normalizeHour startDt) _ _ (by omega),
    if_pos (normalizeHour_mono h)]
  ring

/-- Witness for the amended C4 at a two-hour window with unaligned end. -/
theorem scanTaskCountInclusive_witness :
    0 ≤ 7250 ∧
    (scanListingTasks 0 7250).length =
      ((normalizeHour 7250 - normalizeHour 0) / 3600 + 1) * 2 :=
  ⟨by omega, scanTaskCountInclusive 0 7250 (by omega)⟩

/-! Claim C9: determinism of the report generator -/

theorem lookup_perm {β : Type} {d₁ d₂ : List (String × β)} (h : d₁.Perm d₂) :
    ∀ k : String, (d₁.map Prod.fst).Nodup →
      List.lookup k d₁ = List.lookup k d₂ := by
  induction h with
  | nil => intro k _; rfl
  | cons x hperm ih =>
    intro k hnd
    obtain ⟨kx, vx⟩ := x
    simp only [List.map_cons, List.nodup_cons] at hnd
    rw [List.lookup_cons, List.lookup_cons]
    cases hbeq : (k == kx)
    · simp only [hbeq]
      exact ih k hnd.2
    · simp [hbeq]
  | swap x y l =>
    intro k hnd
    obtain ⟨kx, vx⟩ := x
    obtain ⟨ky, vy⟩ := y
    simp only [List.map_cons, List.nodup_cons, List.mem_cons] at hnd
    have hne : ky ≠ kx := fun hk => hnd.1 (Or.inl hk)
    rw [List.lookup_cons, List.lookup_cons, List.lookup_cons, List.lookup_cons]
    cases hky : (k == ky) <;> cases hkx : (k == kx) <;> simp [hky, hkx]
    exact absurd ((eq_of_beq hky).symm.trans (eq_of_beq hkx)) hne
  | trans h₁ h₂ ih₁ ih₂ =>
    intro k hnd
    rw [ih₁ k hnd, ih₂ k ((h₁.map Prod.fst).nodup_iff.mp hnd)]

theorem mergeSortLe_eq_of_perm {l₁ l₂ : List String} (h : l₁.Perm l₂) :
    l₁.mergeSort (fun a b => decide (a ≤ b)) =
      l₂.mergeSort (fun a b => decide (a ≤ b)) := by
  have htrans : ∀ a b c : String, (decide (a ≤ b)) = true →
      (decide (b ≤ c)) = true → (decide (a ≤ c)) = true := by
    intro a b c hab hbc
    simp only [decide_eq_true_eq] at *
    exact le_trans hab hbc
  have htotal : ∀ a b : String,
      ((decide (a ≤ b)) || (decide (b ≤ a))) = true := by
    intro a b
    simpa using le_total a b
  apply List.eq_of_perm_of_sorted
    (r := fun a b : String => a ≤ b)
  · exact ((l₁.mergeSort_perm _).trans h).trans (l₂.mergeSort_perm _).symm
  · exact (List.sorted_mergeSort htrans htotal l₁).imp
      fun hab => by simpa using hab
  · exact (List.sorted_mergeSort htrans htotal l₂).imp
      fun hab => by simpa using hab

theorem reportProjectOrder_sorted (d : List (String × List (String × String))) :
    List.Sorted (· ≤ ·) (reportProjectOrder d) := by
  have htrans : ∀ a b c : String, (decide (a ≤ b)) = true →
      (decide (b ≤ c)) = true → (decide (a ≤ c)) = true := by
    intro a b c hab hbc
    simp only [decide_eq_true_eq] at *
    exact le_trans hab hbc
  have htotal : ∀ a b : String,
      ((decide (a ≤ b)) || (decide (b ≤ a))) = true := by
    intro a b
    simpa using le_total a b
  exact (List.sorted_mergeSort htrans htotal (d.map Prod.fst)).imp
    fun hab => by simpa using hab

/-- Claim C9: the report text depends only on the map content of the
input — two inputs with the same (distinct) keys and the same per-key
records, in any insertion order, render byte-identical text — and the
projects are emitted in sorted project-path order. -/
theorem generateReportDeterministicSorted
    (d₁ d₂ : List (String × List (String × String)))
    (hnd : (d₁.map Prod.fst).Nodup) (hperm : d₁.Perm d₂) :
    generateReport d₁ = generateReport d₂ ∧
    List.Sorted (· ≤ ·) (reportProjectOrder d₁) := by
  refine ⟨?_, reportProjectOrder_sorted d₁⟩
  have horder : reportProjectOrder d₁ = reportProjectOrder d₂ :=
    mergeSortLe_eq_of_perm (hperm.map Prod.fst)
  simp only [generateReport]
  rw [horder, hperm.length_eq, (hperm.map fun pf => pf.2.length).sum_eq]
  congr 1
  apply List.foldl_ext
  intro acc path _
  rw [lookup_perm hperm path hnd]

/-- Witness for C9: two insertion orders of the same two-project input
render identical text, emitted in sorted order. -/
theorem generateReportDeterministicSorted_witness :
    generateReport [("b/q", [("b/q/preview.v1/x.jpg", "t")]),
        ("a/p", [("a/p/f.v3.gz", "t")])] =
      generateReport [("a/p", [("a/p/f.v3.gz", "t")]),
        ("b/q", [("b/q/preview.v1/x.jpg", "t")])] ∧
    List.Sorted (· ≤ ·) (reportProjectOrder
      [("b/q", [("b/q/preview.v1/x.jpg", "t")]),
        ("a/p", [("a/p/f.v3.gz", "t")])]) :=
  generateReportDeterministicSorted
    [("b/q", [("b/q/preview.v1/x.jpg", "t")]), ("a/p", [("a/p/f.v3.gz", "t")])]
    [("a/p", [("a/p/f.v3.gz", "t")]), ("b/q", [("b/q/preview.v1/x.jpg", "t")])]
    (by decide) (by decide)

/-! Witness material for claim C10 -/

/-- A store that lists no marker keys anywhere. -/
def storeEmpty : String → Nat → List String := fun _ _ => []

/-- A 36-character project identifier matching the pass-1 pattern. -/
def uidA : String := "aaaaaaaaaaaaaaaaaaaaaaaaaaaaaaaaaaaa"

/-- One inventory row: a preview object of project `(uidA, uidA)` of size
10 modified at second 7200. -/
def rowA : List String := ["b", uidA ++ "/" ++ uidA ++ "/preview.v1/f.jpg", "10", "7200"]

/-- Witness for C10: a concrete run with defaulted bounds (now = 7200,
days_back = 0) whose single orphaned record carries timestamp 7200, which
parses and lies inside the defaulted window. -/
theorem findOrphanedDataAlwaysDateFiltered_witness :
    (none : Option Nat).getD ((none : Option Nat).getD 7200 - 0 * 86400) ≤ 7200 ∧
    7200 ≤ (none : Option Nat).getD 7200 := by
  have hh : hoursList (normalizeHour 7200) (normalizeHour 7200) = [7200] := by
    simp [normalizeHour, hoursList]
  have hmc : ∀ mclass, scanMarkerClass storeEmpty mclass
      (normalizeHour 7200) (normalizeHour 7200) = ∅ := by
    intro mclass
    rw [scanMarkerClass, hh]
    simp [storeEmpty]
    decide
  have hscan : scanForProjects storeEmpty 7200 7200 = [] := by
    simp only [scanForProjects]
    rw [hmc, hmc, Finset.inter_self, Finset.sort_empty]
  have hfst : (findOrphanedData parseDigits storeEmpty 7200 0 none none
      [[rowA]] false).1 =
      [(uidA ++ "/" ++ uidA, [(uidA ++ "/" ++ uidA ++ "/preview.v1/f.jpg", "7200")])] := by
    simp only [findOrphanedData, Option.getD_none, Nat.zero_mul, Nat.sub_zero]
    rw [hscan]
    decide
  exact (findOrphanedDataAlwaysDateFiltered parseDigits storeEmpty 7200 0 none none
    [[rowA]] false
    (uidA ++ "/" ++ uidA, [(uidA ++ "/" ++ uidA ++ "/preview.v1/f.jpg", "7200")])
    (uidA ++ "/" ++ uidA ++ "/preview.v1/f.jpg", "7200")
    (Or.inl (by rw [hfst]; exact List.mem_singleton.mpr rfl))
    (List.mem_singleton.mpr rfl)).2 7200 (by decide)

end PreviewWrangler
